import Mathlib

/-!
Verification of the utility functions defined in the `utils.py` listing of
`00-Preface-to-this-readalong.ipynb` (the only code cell of the repository).

The embedding choices:

* A numeric sequence that may contain NaN entries (for the residual
  plotter's pairwise NaN mask) is a `List (Option ℚ)`, `none` playing NaN.
* Timestamps of a `DatetimeIndex` are integers (think periods, or
  nanoseconds since the epoch); the index's set frequency is a positive
  integer step.  `pd.date_range tmin tmax freq` becomes an explicit list.
* The accuracy metrics RMSE and MAE are real-valued; MAPE, whose spec is
  about IEEE non-finite results of division by zero, is computed in a small
  idealized floating-point value domain `FV` (finite real, ±infinity, NaN)
  with the IEEE rules for the operations MAPE performs.
* A DataFrame, for the column-computing helper `compute`, is an association
  list from column names to columns, in column order.
-/

namespace Fpp3

/-! ## Residuals of `plot_tsresiduals`

Source:
```
mask = ~(np.isnan(Y) | np.isnan(y))
Y, y = Y[mask], y[mask]
dy = Y - y
```
-/

/-- The residual series `dy` computed by `plot_tsresiduals`: positions where
either aligned input is NaN (`none`) are dropped by the mask, and each
remaining residual is observed minus predicted, `Y - y`. -/
def plot_tsresiduals_dy (Y y : List (Option ℚ)) : List ℚ :=
  (List.zip Y y).filterMap fun p =>
    match p.1, p.2 with
    | some a, some b => some (a - b)
    | _, _ => none

/-! ## `extend_timeseries`

Source:
```
def extend_timeseries(df, tmax=None, tmin=None, dt=None):
    freq = df.index.freq
    if tmax is tmin is dt is None:
        dt = 1
    if tmin is None:
        tmin = df.index.min()
    if tmax is None:
        tmax = df.index.max()
    if dt is not None:
        if isinstance(dt, int):
            if dt > 0:
                tmax += dt * freq
            elif dt < 0:
                tmin += dt * freq
        else:
            dt = pd.to_timedelta(dt)
            if dt > pd.to_timedelta('0d'):
                tmax += dt
            else:
                tmin -= dt
    index = pd.date_range(tmin, tmax, freq=freq)
    return df.reindex(index)
```
-/

/-- The `dt` argument of `extend_timeseries`: either a Python `int`
(a multiple of the native frequency) or a duration (`pd.Timedelta`,
modelled as an integer amount of time in the same units as timestamps). -/
inductive Dt : Type
  | int (n : ℤ)
  | dur (d : ℤ)
deriving DecidableEq, Repr

/-- What `extend_timeseries` reads off `df`: the minimum and maximum of its
`DatetimeIndex` and the index's set frequency. -/
structure TSFrame : Type where
  tmin : ℤ
  tmax : ℤ
  freq : ℤ
deriving DecidableEq, Repr

/-- A time-indexed table with a set regular frequency: positive native step,
nonempty index, and the two index bounds an exact number of steps apart. -/
def TSFrame.regular (df : TSFrame) : Prop :=
  0 < df.freq ∧ df.tmin ≤ df.tmax ∧ df.freq ∣ (df.tmax - df.tmin)

instance (df : TSFrame) : Decidable df.regular := by
  unfold TSFrame.regular; infer_instance

/-- The range `pd.date_range(tmin, tmax, freq)`: the timestamps
`tmin, tmin + freq, tmin + 2 freq, …` not exceeding `tmax`.  Empty when the
bounds are reversed (and for a non-positive step, which pandas rejects). -/
def date_range (tmin tmax freq : ℤ) : List ℤ :=
  if 0 < freq ∧ tmin ≤ tmax then
    (List.range ((tmax - tmin).toNat / freq.toNat + 1)).map fun i : ℕ => tmin + (i : ℤ) * freq
  else []

/-- The index of the original regular table `df`. -/
def TSFrame.index (df : TSFrame) : List ℤ :=
  date_range df.tmin df.tmax df.freq

/-- The bound arithmetic of `extend_timeseries`: the `(tmin, tmax)` pair it
hands to `pd.date_range`, following the source line by line (the
all-arguments-`None` default `dt = 1`, the defaulting of `tmin`/`tmax` to the
index bounds, then the `int` branch `tmax += dt * freq` / `tmin += dt * freq`
and the duration branch `tmax += dt` / `tmin -= dt`). -/
def extend_bounds (df : TSFrame) (tmax? tmin? : Option ℤ) (dt? : Option Dt) :
    ℤ × ℤ :=
  let freq := df.freq
  let dt? := if tmax?.isNone && tmin?.isNone && dt?.isNone then some (Dt.int 1) else dt?
  let tmin := tmin?.getD df.tmin
  let tmax := tmax?.getD df.tmax
  match dt? with
  | none => (tmin, tmax)
  | some (Dt.int n) =>
      if 0 < n then (tmin, tmax + n * freq)
      else if n < 0 then (tmin + n * freq, tmax)
      else (tmin, tmax)
  | some (Dt.dur d) =>
      if 0 < d then (tmin, tmax + d)
      else (tmin - d, tmax)

/-- The function `extend_timeseries`, as far as the index of its result is
concerned: the
new index is `pd.date_range` over the extended bounds (the `reindex` call
keeps exactly these index positions, filling data with missing values). -/
def extend_timeseries (df : TSFrame) (tmax? tmin? : Option ℤ) (dt? : Option Dt) :
    List ℤ :=
  let b := extend_bounds df tmax? tmin? dt?
  date_range b.1 b.2 df.freq

/-! ## Accuracy metrics

Source:
```
def RMSE(Y, y):
    return np.sqrt(np.mean((Y-y)**2))
def MAE(Y, y):
    return np.mean(np.abs(Y-y))
def MAPE(Y, y):
    return 100 * np.mean(np.abs((Y-y)/Y))
def MASE(Y, y):
    return np.nan # TODO
```
-/

/-- The mean `np.mean` for the real-valued metrics: the sum divided by the length
(real division, so the mean of the empty list degenerates to zero). -/
noncomputable def npMean (l : List ℝ) : ℝ := l.sum / l.length

/-- The metric `RMSE`: the square root of the mean of the squared elementwise
differences `(Y - y) ** 2`. -/
noncomputable def RMSE (Y y : List ℝ) : ℝ :=
  Real.sqrt (npMean ((List.zipWith (fun A a => A - a) Y y).map fun d => d ^ 2))

/-- The metric `MAE`: the mean of the absolute elementwise differences
`|Y - y|`. -/
noncomputable def MAE (Y y : List ℝ) : ℝ :=
  npMean ((List.zipWith (fun A a => A - a) Y y).map fun d => |d|)

/-- An idealized IEEE-754 double for the MAPE computation: a finite real
number, a signed infinity, or NaN.  (Rounding is ignored; only the
finite/non-finite structure matters for the claims.) -/
inductive FV : Type
  | fin (x : ℝ)
  | pinf
  | ninf
  | nan

/-- IEEE addition: NaN propagates, opposite infinities give NaN, an
infinity absorbs finite summands. -/
def FV.add : FV → FV → FV
  | nan, _ => nan
  | _, nan => nan
  | pinf, ninf => nan
  | pinf, _ => pinf
  | ninf, pinf => nan
  | ninf, _ => ninf
  | fin _, pinf => pinf
  | fin _, ninf => ninf
  | fin a, fin b => fin (a + b)

/-- IEEE absolute value. -/
noncomputable def FV.abs : FV → FV
  | fin x => fin |x|
  | pinf => pinf
  | ninf => pinf
  | nan => nan

/-- IEEE multiplication: NaN propagates, zero times infinity is NaN,
otherwise signs multiply. -/
noncomputable def FV.mul : FV → FV → FV
  | nan, _ => nan
  | _, nan => nan
  | fin a, fin b => fin (a * b)
  | fin a, pinf => if a = 0 then nan else if 0 < a then pinf else ninf
  | fin a, ninf => if a = 0 then nan else if 0 < a then ninf else pinf
  | pinf, fin b => if b = 0 then nan else if 0 < b then pinf else ninf
  | ninf, fin b => if b = 0 then nan else if 0 < b then ninf else pinf
  | pinf, pinf => pinf
  | pinf, ninf => ninf
  | ninf, pinf => ninf
  | ninf, ninf => pinf

/-- IEEE division as numpy performs it (warnings aside): a nonzero finite
number over zero is a signed infinity, zero over zero is NaN, NaN
propagates, a finite number over an infinity is zero, infinity over
infinity is NaN. -/
noncomputable def FV.div : FV → FV → FV
  | nan, _ => nan
  | _, nan => nan
  | fin a, fin b =>
      if b = 0 then
        if a = 0 then nan
        else if 0 < a then pinf else ninf
      else fin (a / b)
  | fin _, pinf => fin 0
  | fin _, ninf => fin 0
  | pinf, fin b => if 0 ≤ b then pinf else ninf
  | ninf, fin b => if 0 ≤ b then ninf else pinf
  | pinf, _ => nan
  | ninf, _ => nan

/-- The sum `np.sum` over IEEE values: fold of IEEE addition starting from
zero. -/
def FV.sum (l : List FV) : FV := l.foldr FV.add (FV.fin 0)

/-- The mean `np.mean` over IEEE values: the sum divided by the length (so the mean
of the empty array is NaN, as numpy warns and returns). -/
noncomputable def FV.mean (l : List FV) : FV := (FV.sum l).div (FV.fin l.length)

/-- Whether the value is a finite number (neither an infinity nor NaN). -/
def FV.isFinite : FV → Bool
  | fin _ => true
  | _ => false

/-- The shape of an IEEE absolute value: NaN, positive infinity, or a
nonnegative finite number (never negative infinity). -/
def FV.absLike (v : FV) : Prop :=
  v = FV.nan ∨ v = FV.pinf ∨ ∃ r, 0 ≤ r ∧ v = FV.fin r

/-- The metric `MAPE`: `100 * np.mean(np.abs((Y-y)/Y))`, with the elementwise ratio
`(Y-y)/Y` computed in the IEEE value domain so that a zero observed value
produces a non-finite result instead of raising. -/
noncomputable def MAPE (Y y : List ℝ) : FV :=
  FV.mul (FV.fin 100)
    (FV.mean ((List.zipWith (fun A a => FV.div (FV.fin (A - a)) (FV.fin A)) Y y).map
      FV.abs))

/-- The metric `MASE`: declared but unimplemented; the body is
`return np.nan`. -/
def MASE (_Y _y : List ℝ) : FV := FV.nan

/-! ## `compute`

Source:
```
def compute(df, f):
    newdf = pd.DataFrame(f(df), index=df.index)
    dropcols = [col for col in newdf.columns if col in df.columns]
    if dropcols:
        df = df.drop(columns=dropcols)
    return df.join(newdf)
```
-/

/-- The helper `compute(df, f)`: a table is an association list from column names to
columns in column order; the new columns `f(df)` are built, every original
column whose name also appears among the new columns is dropped, and the
join appends the new columns after the kept original ones. -/
def compute {κ α : Type} [BEq κ] (df : List (κ × α))
    (f : List (κ × α) → List (κ × α)) : List (κ × α) :=
  let newdf := f df
  let dropcols := (newdf.map Prod.fst).filter fun c => (df.map Prod.fst).contains c
  let df' := if dropcols.isEmpty then df
    else df.filter fun p => !(dropcols.contains p.1)
  df' ++ newdf

end Fpp3

namespace Fpp3

/-- Auxiliary: appending one more frequency step to an aligned date range. -/
theorem date_range_add_freq (tmin tmax freq : ℤ) (hf : 0 < freq)
    (hle : tmin ≤ tmax) (hdvd : freq ∣ (tmax - tmin)) :
    date_range tmin (tmax + freq) freq = date_range tmin tmax freq ++ [tmax + freq] := by
  have hle' : tmin ≤ tmax + freq := le_trans hle (by linarith)
  have hfn : 0 < freq.toNat := by omega
  have hdvdn : freq.toNat ∣ (tmax - tmin).toNat := by
    rcases hdvd with ⟨k, hk⟩
    have hk0 : 0 ≤ k := by
      by_contra h
      push_neg at h
      have hneg : freq * k < 0 := mul_neg_of_pos_of_neg hf h
      linarith [hk]
    refine ⟨k.toNat, ?_⟩
    have h1 : ((tmax - tmin).toNat : ℤ) = tmax - tmin := Int.toNat_of_nonneg (by linarith)
    have h2 : ((freq.toNat : ℤ)) = freq := Int.toNat_of_nonneg (by linarith)
    have h3 : ((k.toNat : ℤ)) = k := Int.toNat_of_nonneg hk0
    have hcast : ((tmax - tmin).toNat : ℤ) = (freq.toNat : ℤ) * (k.toNat : ℤ) := by
      rw [h1, h2, h3]
      exact hk
    exact_mod_cast hcast
  have hq : (((tmax - tmin).toNat / freq.toNat : ℕ) : ℤ) * freq = tmax - tmin := by
    have hmul : ((tmax - tmin).toNat / freq.toNat) * freq.toNat = (tmax - tmin).toNat :=
      Nat.div_mul_cancel hdvdn
    have h1 : ((freq.toNat : ℤ)) = freq := by omega
    have h2 : (((tmax - tmin).toNat : ℕ) : ℤ) = tmax - tmin := by omega
    calc (((tmax - tmin).toNat / freq.toNat : ℕ) : ℤ) * freq
        = (((tmax - tmin).toNat / freq.toNat : ℕ) : ℤ) * (freq.toNat : ℤ) := by rw [h1]
      _ = (((tmax - tmin).toNat / freq.toNat * freq.toNat : ℕ) : ℤ) := by push_cast; ring
      _ = tmax - tmin := by rw [hmul]; exact h2
  have hlast : tmin + (((tmax - tmin).toNat / freq.toNat + 1 : ℕ) : ℤ) * freq
      = tmax + freq := by
    push_cast
    push_cast at hq
    linarith [hq]
  have htn : ((tmax + freq - tmin).toNat) = (tmax - tmin).toNat + freq.toNat := by
    omega
  rw [date_range, date_range, if_pos ⟨hf, hle'⟩, if_pos ⟨hf, hle⟩, htn,
    Nat.add_div_right _ hfn, List.range_succ]
  simp only [List.map_append, List.map_cons, List.map_nil]
  rw [hlast]

/-- C1: the residual computation of `plot_tsresiduals` first drops index
positions where either input is missing (NaN), pairwise, then computes each
residual as observed minus predicted (`Y - y`); in particular, for
`Y = [1, 2, 3]` and `y = [1, 1, 1]` the residual sequence is `[0, 1, 2]`. -/
theorem C1_residuals_drop_nan_and_subtract :
    (∀ (b : Option ℚ) (Y y : List (Option ℚ)),
        plot_tsresiduals_dy (none :: Y) (b :: y) = plot_tsresiduals_dy Y y)
    ∧ (∀ (a : Option ℚ) (Y y : List (Option ℚ)),
        plot_tsresiduals_dy (a :: Y) (none :: y) = plot_tsresiduals_dy Y y)
    ∧ (∀ (a b : ℚ) (Y y : List (Option ℚ)),
        plot_tsresiduals_dy (some a :: Y) (some b :: y)
          = (a - b) :: plot_tsresiduals_dy Y y)
    ∧ plot_tsresiduals_dy [some 1, some 2, some 3] [some 1, some 1, some 1]
        = [0, 1, 2] := by
  refine ⟨?_, ?_, ?_, by norm_num [plot_tsresiduals_dy, List.zip_cons_cons,
    List.filterMap_cons]⟩
  · intro b Y y
    simp [plot_tsresiduals_dy, List.zip_cons_cons, List.filterMap_cons]
  · intro a Y y
    cases a <;>
      simp [plot_tsresiduals_dy, List.zip_cons_cons, List.filterMap_cons]
  · intro a b Y y
    simp [plot_tsresiduals_dy, List.zip_cons_cons, List.filterMap_cons]

/-- C2: on a table with a detectable regular frequency, `extend_timeseries`
with no arguments extends the index by exactly one native frequency step
forward: the result is the original index plus exactly one additional row at
`tmax + freq`, strictly beyond the original maximum timestamp, and the
minimum timestamp is unchanged (the original index is a prefix). -/
theorem C2_extend_no_args_one_step (df : TSFrame) (h : df.regular) :
    extend_timeseries df none none none = df.index ++ [df.tmax + df.freq]
    ∧ df.tmax < df.tmax + df.freq := by
  obtain ⟨hf, hle, hdvd⟩ := h
  refine ⟨?_, by linarith⟩
  have hb : extend_timeseries df none none none
      = date_range df.tmin (df.tmax + 1 * df.freq) df.freq := rfl
  rw [hb, TSFrame.index, one_mul]
  exact date_range_add_freq df.tmin df.tmax df.freq hf hle hdvd

/-- Witness for C2 at the concrete frame with bounds 0..2 and frequency 1. -/
theorem C2_extend_no_args_one_step_witness :
    extend_timeseries ⟨0, 2, 1⟩ none none none
      = TSFrame.index ⟨0, 2, 1⟩ ++ [(2 : ℤ) + 1] ∧ (2 : ℤ) < 2 + 1 :=
  C2_extend_no_args_one_step ⟨0, 2, 1⟩ (by decide)

/-- C3: an integer step `dt` passed to `extend_timeseries` is interpreted as
a multiple of the native frequency: if `dt > 0` the maximum bound is extended
forward by `dt` frequency steps and the minimum bound is unchanged; if
`dt < 0` the minimum bound is extended backward by `|dt|` frequency steps and
the maximum bound is unchanged. -/
theorem C3_integer_step_multiple_of_freq (df : TSFrame) (n : ℤ)
    (hf : 0 < df.freq) (hn : n ≠ 0) :
    (0 < n → extend_bounds df none none (some (Dt.int n))
        = (df.tmin, df.tmax + n * df.freq))
    ∧ (n < 0 → extend_bounds df none none (some (Dt.int n))
        = (df.tmin - (n.natAbs : ℤ) * df.freq, df.tmax)) := by
  constructor
  · intro hpos
    simp [extend_bounds, hpos]
  · intro hneg
    have h1 : ¬ 0 < n := by linarith
    have h2 : (n.natAbs : ℤ) = -n := by omega
    simp [extend_bounds, h1, hneg, h2]

/-- Witness for C3 at the frame with bounds 0..2, frequency 1, and steps
`dt = 3` and `dt = -3`. -/
theorem C3_integer_step_multiple_of_freq_witness :
    extend_bounds ⟨0, 2, 1⟩ none none (some (Dt.int 3)) = ((0 : ℤ), (2 : ℤ) + 3 * 1)
    ∧ extend_bounds ⟨0, 2, 1⟩ none none (some (Dt.int (-3)))
        = ((0 : ℤ) - 3 * 1, (2 : ℤ)) :=
  ⟨(C3_integer_step_multiple_of_freq ⟨0, 2, 1⟩ 3 (by decide) (by decide)).1 (by decide),
   (C3_integer_step_multiple_of_freq ⟨0, 2, 1⟩ (-3) (by decide) (by decide)).2 (by decide)⟩

/-- C4, failing input: on the frame with bounds 0..2 and frequency 1, the
negative duration step `dt = -1` does not extend the minimum bound backward
to `-1`; the source line `tmin -= dt` subtracts the negative duration,
moving the minimum forward to `1`, so the result index is truncated at the
front instead of extended. -/
theorem C4_negative_duration_moves_min_forward :
    extend_bounds ⟨0, 2, 1⟩ none none (some (Dt.dur (-1))) = (1, 2)
    ∧ extend_bounds ⟨0, 2, 1⟩ none none (some (Dt.dur (-1))) ≠ (-1, 2)
    ∧ extend_timeseries ⟨0, 2, 1⟩ none none (some (Dt.dur (-1))) = [1, 2] := by
  decide

/-- Auxiliary (Cauchy–Schwarz for lists): the square of the sum of absolute
values is at most the length times the sum of squares. -/
theorem sq_sum_abs_le_length_mul_sum_sq (l : List ℝ) :
    ((l.map fun d => |d|).sum) ^ 2 ≤ (l.length : ℝ) * ((l.map fun d => d ^ 2).sum) := by
  induction l with
  | nil => simp
  | cons x l ih =>
    have hS : 0 ≤ (l.map fun d => |d|).sum := by
      apply List.sum_nonneg
      intro a ha
      simp only [List.mem_map] at ha
      obtain ⟨b, _, rfl⟩ := ha
      exact abs_nonneg b
    have hQ : 0 ≤ (l.map fun d => d ^ 2).sum := by
      apply List.sum_nonneg
      intro a ha
      simp only [List.mem_map] at ha
      obtain ⟨b, _, rfl⟩ := ha
      exact sq_nonneg b
    simp only [List.map_cons, List.sum_cons, List.length_cons]
    push_cast
    rcases Nat.eq_zero_or_pos l.length with h0 | hpos
    · have hl : l = [] := List.length_eq_zero.mp h0
      subst hl
      simp [sq_abs]
    · have hn : (0 : ℝ) < l.length := by exact_mod_cast hpos
      set n : ℝ := (l.length : ℝ)
      set S : ℝ := (l.map fun d => |d|).sum
      set Q : ℝ := (l.map fun d => d ^ 2).sum
      have key : n * ((n + 1) * (x ^ 2 + Q) - (|x| + S) ^ 2)
          = (n * |x| - S) ^ 2 + (n + 1) * (n * Q - S ^ 2) := by
        linear_combination (-(n * (n + 1))) * sq_abs x
      have hiq : 0 ≤ n * Q - S ^ 2 := by linarith [ih]
      nlinarith [key, sq_nonneg (n * |x| - S), hiq, hn,
        mul_nonneg (by linarith : (0 : ℝ) ≤ n + 1) hiq]

/-- C5: for equal-length numeric sequences with no missing values, the
accuracy metrics satisfy `RMSE(Y, y) ≥ MAE(Y, y) ≥ 0`. -/
theorem C5_rmse_ge_mae_ge_zero (Y y : List ℝ) (h : Y.length = y.length) :
    RMSE Y y ≥ MAE Y y ∧ MAE Y y ≥ 0 := by
  set d : List ℝ := List.zipWith (fun A a => A - a) Y y with hd
  have hS : 0 ≤ (d.map fun x => |x|).sum := by
    apply List.sum_nonneg
    intro a ha
    simp only [List.mem_map] at ha
    obtain ⟨b, _, rfl⟩ := ha
    exact abs_nonneg b
  have hMAE : MAE Y y = (d.map fun x => |x|).sum / (d.length : ℝ) := by
    simp [MAE, npMean, hd]
  have hMAE0 : MAE Y y ≥ 0 := by
    rw [hMAE]
    positivity
  refine ⟨?_, hMAE0⟩
  have hR : RMSE Y y = Real.sqrt ((d.map fun x => x ^ 2).sum / (d.length : ℝ)) := by
    simp [RMSE, npMean, hd]
  rw [hR, ge_iff_le]
  apply Real.le_sqrt_of_sq_le
  have hkey := sq_sum_abs_le_length_mul_sum_sq d
  rcases Nat.eq_zero_or_pos d.length with h0 | hpos
  · have hl : d = [] := List.length_eq_zero.mp h0
    rw [hMAE, hl]
    simp
  · have hn : (0 : ℝ) < d.length := by exact_mod_cast hpos
    rw [hMAE, div_pow, div_le_div_iff (by positivity) hn]
    nlinarith [hkey, hn]

/-- Witness for C5 at `Y = [1, 2]`, `y = [0, 0]`. -/
theorem C5_rmse_ge_mae_ge_zero_witness :
    RMSE [1, 2] [0, 0] ≥ MAE [1, 2] [0, 0] ∧ MAE [1, 2] [0, 0] ≥ 0 :=
  C5_rmse_ge_mae_ge_zero [1, 2] [0, 0] rfl

/-- C10: calling `extend_timeseries` with the integer step `dt = 0` and no
explicit bounds extends neither bound: the resulting index is exactly the
original index, from the original minimum to the original maximum, with no
rows added. -/
theorem C10_zero_integer_step_no_change (df : TSFrame) :
    extend_timeseries df none none (some (Dt.int 0)) = df.index := rfl

/-- Auxiliary: scaling both inputs by a nonzero constant leaves every
elementwise IEEE ratio `(Y-y)/Y` of nonzero-observation inputs unchanged. -/
theorem zipWith_ratio_scale (c : ℝ) (hc : c ≠ 0) :
    ∀ Y y : List ℝ, (∀ A ∈ Y, A ≠ 0) →
      List.zipWith (fun A a => FV.div (FV.fin (A - a)) (FV.fin A))
          (Y.map fun A => c * A) (y.map fun a => c * a)
        = List.zipWith (fun A a => FV.div (FV.fin (A - a)) (FV.fin A)) Y y := by
  intro Y
  induction Y with
  | nil =>
    intro y _
    simp
  | cons A Y ih =>
    intro y hY
    cases y with
    | nil => simp
    | cons a y =>
      simp only [List.map_cons, List.zipWith_cons_cons]
      have hA : A ≠ 0 := hY A (List.mem_cons_self A Y)
      have hcA : c * A ≠ 0 := mul_ne_zero hc hA
      have hterm : FV.div (FV.fin (c * A - c * a)) (FV.fin (c * A))
          = FV.div (FV.fin (A - a)) (FV.fin A) := by
        simp only [FV.div, if_neg hcA, if_neg hA]
        congr 1
        rw [show c * A - c * a = c * (A - a) by ring]
        exact mul_div_mul_left _ _ hc
      rw [hterm, ih y fun B hB => hY B (List.mem_cons_of_mem A hB)]

/-- C6: MAPE is invariant under simultaneous positive scalar multiplication
of both equal-length inputs when every observed value is nonzero. -/
theorem C6_mape_scale_invariance (c : ℝ) (Y y : List ℝ) (hc : 0 < c)
    (hY : ∀ A ∈ Y, A ≠ 0) (hlen : Y.length = y.length) :
    MAPE (Y.map fun A => c * A) (y.map fun a => c * a) = MAPE Y y := by
  unfold MAPE
  rw [zipWith_ratio_scale c (ne_of_gt hc) Y y hY]

/-- Witness for C6 at `c = 2`, `Y = [1]`, `y = [3]`. -/
theorem C6_mape_scale_invariance_witness :
    MAPE ([1].map fun A => (2 : ℝ) * A) ([3].map fun a => (2 : ℝ) * a)
      = MAPE [1] [3] :=
  C6_mape_scale_invariance 2 [1] [3] (by norm_num) (by simp) rfl

/-- Auxiliary: every IEEE absolute value has `absLike` shape. -/
theorem abs_absLike (v : FV) : FV.absLike (FV.abs v) := by
  cases v with
  | fin x => exact Or.inr (Or.inr ⟨|x|, abs_nonneg x, rfl⟩)
  | pinf => exact Or.inr (Or.inl rfl)
  | ninf => exact Or.inr (Or.inl rfl)
  | nan => exact Or.inl rfl

/-- Auxiliary: IEEE addition of two `absLike` values is `absLike`. -/
theorem fv_add_absLike {u v : FV} (hu : FV.absLike u) (hv : FV.absLike v) :
    FV.absLike (FV.add u v) := by
  rcases hu with rfl | rfl | ⟨r, hr, rfl⟩ <;> rcases hv with rfl | rfl | ⟨s, hs, rfl⟩
  · exact Or.inl rfl
  · exact Or.inl rfl
  · exact Or.inl rfl
  · exact Or.inl rfl
  · exact Or.inr (Or.inl rfl)
  · exact Or.inr (Or.inl rfl)
  · exact Or.inl rfl
  · exact Or.inr (Or.inl rfl)
  · exact Or.inr (Or.inr ⟨r + s, by linarith, rfl⟩)

/-- Auxiliary: adding a NaN or positive-infinity value to an `absLike`
value, on either side, gives NaN or positive infinity. -/
theorem fv_add_nonfinite {u v : FV} (hu : FV.absLike u) (hv : FV.absLike v)
    (h : (u = FV.nan ∨ u = FV.pinf) ∨ (v = FV.nan ∨ v = FV.pinf)) :
    FV.add u v = FV.nan ∨ FV.add u v = FV.pinf := by
  rcases hu with rfl | rfl | ⟨r, hr, rfl⟩ <;>
    rcases hv with rfl | rfl | ⟨s, hs, rfl⟩
  · exact Or.inl rfl
  · exact Or.inl rfl
  · exact Or.inl rfl
  · exact Or.inl rfl
  · exact Or.inr rfl
  · exact Or.inr rfl
  · exact Or.inl rfl
  · exact Or.inr rfl
  · rcases h with (h | h) | (h | h) <;> simp at h

/-- Auxiliary: the IEEE sum of `absLike` values is again `absLike`. -/
theorem sum_absLike : ∀ l : List FV, (∀ v ∈ l, FV.absLike v) →
    FV.absLike (FV.sum l) := by
  intro l
  induction l with
  | nil =>
    intro _
    exact Or.inr (Or.inr ⟨0, le_refl 0, rfl⟩)
  | cons x l ih =>
    intro h
    exact fv_add_absLike (h x (List.mem_cons_self x l))
      (ih fun v hv => h v (List.mem_cons_of_mem x hv))

/-- Auxiliary: an IEEE sum over `absLike` values with at least one NaN or
positive-infinity summand is NaN or positive infinity. -/
theorem sum_nonfinite : ∀ l : List FV, (∀ v ∈ l, FV.absLike v) →
    (∃ v ∈ l, v = FV.nan ∨ v = FV.pinf) →
    FV.sum l = FV.nan ∨ FV.sum l = FV.pinf := by
  intro l
  induction l with
  | nil =>
    rintro _ ⟨v, hv, _⟩
    exact absurd hv (List.not_mem_nil v)
  | cons x l ih =>
    rintro hall ⟨v, hv, hbad⟩
    have hx := hall x (List.mem_cons_self x l)
    have hl := sum_absLike l fun w hw => hall w (List.mem_cons_of_mem x hw)
    rcases List.mem_cons.mp hv with rfl | hvl
    · exact fv_add_nonfinite hx hl (Or.inl hbad)
    · exact fv_add_nonfinite hx hl
        (Or.inr (ih (fun w hw => hall w (List.mem_cons_of_mem x hw)) ⟨v, hvl, hbad⟩))

/-- Auxiliary: a zero observed value puts a NaN or positive-infinity term
into the elementwise `|(Y-y)/Y|` array. -/
theorem mem_ratio_bad : ∀ Y y : List ℝ, Y.length = y.length → (0 : ℝ) ∈ Y →
    ∃ v ∈ (List.zipWith (fun A a => FV.div (FV.fin (A - a)) (FV.fin A)) Y y).map
        FV.abs, v = FV.nan ∨ v = FV.pinf := by
  intro Y
  induction Y with
  | nil =>
    intro y _ h
    simp at h
  | cons A Y ih =>
    intro y hlen h0
    cases y with
    | nil => simp at hlen
    | cons a y =>
      simp only [List.zipWith_cons_cons, List.map_cons]
      rcases List.mem_cons.mp h0 with h | h
      · refine ⟨FV.abs (FV.div (FV.fin (A - a)) (FV.fin A)),
          List.mem_cons_self _ _, ?_⟩
        rw [← h]
        by_cases ha : a = 0
        · left
          simp [FV.div, ha, FV.abs]
        · right
          by_cases hneg : a < 0
          · simp [FV.div, ha, hneg, FV.abs]
          · simp [FV.div, ha, hneg, FV.abs]
      · obtain ⟨v, hv, hbad⟩ := ih y (by simpa using hlen) h
        exact ⟨v, List.mem_cons_of_mem _ hv, hbad⟩

/-- Auxiliary: with every observed value nonzero, the elementwise IEEE
`|(Y-y)/Y|` array is the real array `|(Y-y)/Y|` embedded as finite values. -/
theorem ratio_all_fin : ∀ Y y : List ℝ, (∀ A ∈ Y, A ≠ 0) →
    (List.zipWith (fun A a => FV.div (FV.fin (A - a)) (FV.fin A)) Y y).map FV.abs
      = (List.zipWith (fun A a => |(A - a) / A|) Y y).map FV.fin := by
  intro Y
  induction Y with
  | nil =>
    intro y _
    simp
  | cons A Y ih =>
    intro y hY
    cases y with
    | nil => simp
    | cons a y =>
      simp only [List.zipWith_cons_cons, List.map_cons]
      have hA : A ≠ 0 := hY A (List.mem_cons_self A Y)
      rw [ih y fun B hB => hY B (List.mem_cons_of_mem A hB)]
      simp [FV.div, hA, FV.abs]

/-- Auxiliary: the IEEE sum of embedded finite reals is the embedded sum. -/
theorem fv_sum_map_fin : ∀ l : List ℝ, FV.sum (l.map FV.fin) = FV.fin l.sum := by
  intro l
  induction l with
  | nil => rfl
  | cons x l ih =>
    have hsum : FV.sum ((x :: l).map FV.fin) = FV.add (FV.fin x) (FV.sum (l.map FV.fin)) :=
      rfl
    rw [hsum, ih]
    simp [FV.add]

/-- C7: MAPE produces a non-finite value (never an exception) whenever some
observed value is zero; with all observed values nonzero (and a nonempty
input, so the mean exists) it equals `100` times the mean of `|(Y-y)/Y|`. -/
theorem C7_mape_zero_denominator (Y y : List ℝ) (hlen : Y.length = y.length) :
    ((0 : ℝ) ∈ Y → (MAPE Y y).isFinite = false)
    ∧ ((∀ A ∈ Y, A ≠ 0) → 0 < Y.length →
        MAPE Y y
          = FV.fin (100 * npMean (List.zipWith (fun A a => |(A - a) / A|) Y y))) := by
  constructor
  · intro h0
    have hall : ∀ v ∈ (List.zipWith (fun A a => FV.div (FV.fin (A - a)) (FV.fin A))
        Y y).map FV.abs, FV.absLike v := by
      intro v hv
      rcases List.mem_map.mp hv with ⟨u, _, rfl⟩
      exact abs_absLike u
    have hbad := mem_ratio_bad Y y hlen h0
    have hsum := sum_nonfinite _ hall hbad
    unfold MAPE FV.mean
    rcases hsum with h | h <;> rw [h]
    · rfl
    · have h100 : ¬ (100 : ℝ) = 0 := by norm_num
      have h100' : (0 : ℝ) < 100 := by norm_num
      have hlen0 : (0 : ℝ) ≤ (((List.zipWith
          (fun A a => FV.div (FV.fin (A - a)) (FV.fin A)) Y y).map FV.abs).length : ℝ) := by
        positivity
      simp [FV.div, FV.mul, hlen0, h100, h100', FV.isFinite]
  · intro hY hlen0
    have hz := ratio_all_fin Y y hY
    unfold MAPE FV.mean
    rw [hz, fv_sum_map_fin]
    have hL : ((List.zipWith (fun A a => |(A - a) / A|) Y y).map FV.fin).length
        = Y.length := by
      simp [List.length_zipWith, hlen]
    rw [hL]
    have hne : ((Y.length : ℝ)) ≠ 0 := by
      exact_mod_cast Nat.pos_iff_ne_zero.mp hlen0
    have hmean : npMean (List.zipWith (fun A a => |(A - a) / A|) Y y)
        = (List.zipWith (fun A a => |(A - a) / A|) Y y).sum / (Y.length : ℝ) := by
      rw [npMean]
      congr 2
      simp [List.length_zipWith, hlen]
    rw [hmean]
    simp [FV.div, FV.mul, hne]

/-- Witness for C7 at `Y = [0, 1]`, `y = [1, 1]` (zero observed value) and
at `Y = [2]`, `y = [1]` (all observed values nonzero). -/
theorem C7_mape_zero_denominator_witness :
    (MAPE [0, 1] [1, 1]).isFinite = false
    ∧ MAPE [2] [1]
        = FV.fin (100 * npMean (List.zipWith (fun A a => |(A - a) / A|) [2] [1])) :=
  ⟨(C7_mape_zero_denominator [0, 1] [1, 1] rfl).1 (by simp),
   (C7_mape_zero_denominator [2] [1] rfl).2 (by simp) (by simp)⟩

/-- C8: MASE, declared but unimplemented, returns the NaN placeholder for
every pair of inputs: never a finite number, never an exception. -/
theorem C8_mase_always_nan (Y y : List ℝ) :
    MASE Y y = FV.nan ∧ (MASE Y y).isFinite = false :=
  ⟨rfl, rfl⟩

/-- Auxiliary: `lookup` over an appended association list tries the left
part first. -/
theorem lookup_append {κ α : Type} [BEq κ] (a : κ) :
    ∀ l₁ l₂ : List (κ × α),
      List.lookup a (l₁ ++ l₂)
        = match List.lookup a l₁ with
          | some v => some v
          | none => List.lookup a l₂ := by
  intro l₁
  induction l₁ with
  | nil =>
    intro l₂
    rfl
  | cons x l ih =>
    intro l₂
    obtain ⟨k, v⟩ := x
    rw [List.cons_append]
    cases hb : (a == k) with
    | true => simp [List.lookup, hb]
    | false => simp [List.lookup, hb, ih l₂]

/-- Auxiliary: `lookup` misses when no key of the list equals the name. -/
theorem lookup_eq_none_of_forall_ne {κ α : Type} [BEq κ] [LawfulBEq κ] (a : κ) :
    ∀ l : List (κ × α), (∀ x ∈ l, x.1 ≠ a) → List.lookup a l = none := by
  intro l
  induction l with
  | nil =>
    intro _
    rfl
  | cons x l ih =>
    intro h
    obtain ⟨k, v⟩ := x
    have hk : k ≠ a := h (k, v) (List.mem_cons_self _ _)
    have hb : (a == k) = false := by
      refine beq_eq_false_iff_ne.mpr ?_
      exact fun he => hk he.symm
    simp only [List.lookup, hb]
    exact ih fun x hx => h x (List.mem_cons_of_mem _ hx)

/-- Auxiliary: a filter that keeps every entry carrying the looked-up name
preserves the lookup result. -/
theorem lookup_filter_keep {κ α : Type} [BEq κ] [LawfulBEq κ] (a : κ)
    (p : κ × α → Bool) :
    ∀ l : List (κ × α), (∀ x ∈ l, x.1 = a → p x = true) →
      List.lookup a (l.filter p) = List.lookup a l := by
  intro l
  induction l with
  | nil =>
    intro _
    rfl
  | cons x l ih =>
    intro h
    obtain ⟨k, v⟩ := x
    have ihl := ih fun x hx => h x (List.mem_cons_of_mem _ hx)
    by_cases hk : k = a
    · have hp : p (k, v) = true := h (k, v) (List.mem_cons_self _ _) hk
      subst hk
      rw [List.filter_cons, if_pos hp]
      simp [List.lookup]
    · have hb : (a == k) = false := by
        refine beq_eq_false_iff_ne.mpr ?_
        exact fun he => hk he.symm
      rw [List.filter_cons]
      cases hpv : p (k, v) with
      | true =>
        rw [if_pos rfl]
        simp only [List.lookup, hb]
        exact ihl
      | false =>
        simp only [Bool.false_eq_true, if_false]
        rw [ihl]
        simp [List.lookup, hb]

/-- C9: `compute` replaces the columns of `df` whose names collide with the
columns produced by `f(df)` and keeps every other original column with its
values unchanged: lookup by column name in the result agrees with the new
columns on names they carry and with the original table on all other
names. -/
theorem C9_compute_replaces_and_preserves {κ α : Type} [BEq κ] [LawfulBEq κ]
    (df : List (κ × α)) (f : List (κ × α) → List (κ × α)) (name : κ) :
    (name ∈ (f df).map Prod.fst →
        List.lookup name (compute df f) = List.lookup name (f df))
    ∧ (name ∉ (f df).map Prod.fst →
        List.lookup name (compute df f) = List.lookup name df) := by
  have hcompute : compute df f
      = (if ((((f df).map Prod.fst).filter fun c =>
              (df.map Prod.fst).contains c).isEmpty) then df
          else df.filter fun p =>
            !((((f df).map Prod.fst).filter fun c =>
                (df.map Prod.fst).contains c).contains p.1)) ++ f df := rfl
  constructor
  · intro hmem
    have hnone : List.lookup name
        (if ((((f df).map Prod.fst).filter fun c =>
            (df.map Prod.fst).contains c).isEmpty) then df
          else df.filter fun p =>
            !((((f df).map Prod.fst).filter fun c =>
                (df.map Prod.fst).contains c).contains p.1)) = none := by
      by_cases he : ((((f df).map Prod.fst).filter fun c =>
          (df.map Prod.fst).contains c).isEmpty)
      · rw [if_pos he]
        apply lookup_eq_none_of_forall_ne
        intro x hx hxname
        have hdfname : name ∈ df.map Prod.fst :=
          List.mem_map.mpr ⟨x, hx, hxname⟩
        have hmemfilter : name ∈ (((f df).map Prod.fst).filter fun c =>
            (df.map Prod.fst).contains c) :=
          List.mem_filter.mpr ⟨hmem, List.elem_eq_true_of_mem hdfname⟩
        rw [List.isEmpty_iff] at he
        rw [he] at hmemfilter
        exact absurd hmemfilter (List.not_mem_nil name)
      · rw [if_neg he]
        apply lookup_eq_none_of_forall_ne
        intro x hx hxname
        have hx' := List.mem_filter.mp hx
        have hdfname : name ∈ df.map Prod.fst :=
          List.mem_map.mpr ⟨x, hx'.1, hxname⟩
        have hmemfilter : name ∈ (((f df).map Prod.fst).filter fun c =>
            (df.map Prod.fst).contains c) :=
          List.mem_filter.mpr ⟨hmem, List.elem_eq_true_of_mem hdfname⟩
        have := hx'.2
        rw [hxname] at this
        simp only [Bool.not_eq_true'] at this
        exact absurd hmemfilter (by simpa using this)
    rw [hcompute, lookup_append, hnone]
  · intro hnmem
    have hnone2 : List.lookup name (f df) = none := by
      apply lookup_eq_none_of_forall_ne
      intro x hx hxname
      exact hnmem (List.mem_map.mpr ⟨x, hx, hxname⟩)
    have hndrop : name ∉ (((f df).map Prod.fst).filter fun c =>
        (df.map Prod.fst).contains c) := by
      intro hc
      exact hnmem (List.mem_filter.mp hc).1
    have hdf'eq : List.lookup name
        (if ((((f df).map Prod.fst).filter fun c =>
            (df.map Prod.fst).contains c).isEmpty) then df
          else df.filter fun p =>
            !((((f df).map Prod.fst).filter fun c =>
                (df.map Prod.fst).contains c).contains p.1))
        = List.lookup name df := by
      by_cases he : ((((f df).map Prod.fst).filter fun c =>
          (df.map Prod.fst).contains c).isEmpty)
      · rw [if_pos he]
      · rw [if_neg he]
        apply lookup_filter_keep
        intro x _ hxname
        rw [hxname]
        simp only [Bool.not_eq_true']
        simpa using hndrop
    rw [hcompute, lookup_append, hdf'eq]
    cases hlk : List.lookup name df with
    | some v => rfl
    | none => exact hnone2

/-- Witness for C9 with the table `[(0, [1]), (1, [2])]` and a function
producing columns named 1 and 2: column 1 is replaced, column 0 is kept,
column 2 is new. -/
theorem C9_compute_replaces_and_preserves_witness :
    (List.lookup 0 (compute [(0, [(1 : ℤ)]), (1, [2])]
        fun _ => [(1, [(30 : ℤ)]), (2, [40])])
      = List.lookup 0 [(0, [(1 : ℤ)]), (1, [2])])
    ∧ (List.lookup 1 (compute [(0, [(1 : ℤ)]), (1, [2])]
        fun _ => [(1, [(30 : ℤ)]), (2, [40])])
      = List.lookup 1 [(1, [(30 : ℤ)]), (2, [40])]) :=
  ⟨(C9_compute_replaces_and_preserves (κ := ℕ) [(0, [(1 : ℤ)]), (1, [2])]
      (fun _ => [(1, [(30 : ℤ)]), (2, [40])]) 0).2 (by decide),
   (C9_compute_replaces_and_preserves (κ := ℕ) [(0, [(1 : ℤ)]), (1, [2])]
      (fun _ => [(1, [(30 : ℤ)]), (2, [40])]) 1).1 (by decide)⟩

end Fpp3
